import Mathlib

/-!
Packed multi-level partition (`include/util/multi_level_partition.hpp`) and the order of
node based edges (`include/extractor/node_based_edge.hpp`).

A shallow embedding of `osrm::util::PackedMultiLevelPartition`, of the helper
`detail::highestMSB` and of `osrm::extractor::NodeBasedEdge::operator<`, followed by
theorems about the embedded code.

Conventions of the embedding.

* Machine integers are natural numbers (or integers, for the one signed counter
  `sum_bits`), reduced modulo the width of the C++ type wherever the source can wrap:
  `PartitionID` and `std::size_t` are 64 bits wide, `CellID` and `NodeID` 32 bits,
  `LevelID` 8 bits, `int` 32 bits.
* `std::vector` and `std::array` are lists.  `operator[]` is unchecked in the source, so a
  read past the end has no defined value.  Query functions read with default `0`; the
  theorems about them only concern reads that are in range unless they say otherwise.  The
  construction does read past the end of `level_masks` (see `SetCellID`), and there the
  value read is an explicit parameter `junk`, so that every statement about a constructed
  partition holds for whatever value such a read yields.
* `BOOST_ASSERT` is modelled as active: a failed assertion aborts, which is `none`.
-/

namespace osrm.util

namespace detail

/-- The loop of `highestMSB`: `while (value > 0) { value >>= 1u; msb++; }`.
The first argument bounds the number of iterations. -/
def highestMSBLoop : Nat → Nat → Nat → Nat
  | 0, _, msb => msb
  | fuel + 1, value, msb =>
    if value > 0 then highestMSBLoop fuel (value >>> 1) (msb + 1) else msb

/-- `detail::highestMSB`: `msb` starts at `0` and is incremented once per right shift until
the value is `0`.  The loop runs at most `value` times, which is the bound given. -/
def highestMSB (value : Nat) : Nat :=
  highestMSBLoop value value 0

end detail

/-- `NUM_PARTITION_BITS = sizeof(PartitionID) * 8`. -/
def NUM_PARTITION_BITS : Nat := 64

/-- Values of `PartitionID` and `std::size_t` are taken modulo this. -/
def WORD : Nat := 2 ^ 64

/-- Values of `CellID` are taken modulo this. -/
def CELL_WORD : Nat := 2 ^ 32

/-- Values of `LevelID` are taken modulo this. -/
def LEVEL_WORD : Nat := 2 ^ 8

/-- Modelled from the spec: `NodeID` is declared in `util/typedefs.hpp`, which is not among
the sources at hand; the spec has it as a dense zero-based integer, and it is taken as 32
bits wide, like `CellID`.  Values of `NodeID` are taken modulo this. -/
def NODE_WORD : Nat := 2 ^ 32

/-- Conversion to the 32-bit signed `int` (two's complement wrap-around). -/
def wrapInt32 (x : Int) : Int :=
  let u := x % 2 ^ 32
  if u < 2 ^ 31 then u else u - 2 ^ 32

/-- Conversion of an `int` to `std::size_t`. -/
def toSizeT (x : Int) : Nat := (x % 2 ^ 64).toNat

/-- Search for the least `b` with `n ≤ 2 ^ b`, upwards from `b`; the first argument bounds
the number of steps. -/
def ceilLog2Loop : Nat → Nat → Nat → Nat
  | 0, _, b => b
  | fuel + 1, n, b => if n ≤ 2 ^ b then b else ceilLog2Loop fuel n (b + 1)

/-- The least `b` with `n ≤ 2 ^ b`, that is `ceil(log2(n))` for `n ≥ 1`, in a form that
evaluates (`n ≤ 2 ^ n`, so `n` steps are enough); `ceilLog2_eq_clog` identifies it with
`Nat.clog 2`. -/
def ceilLog2 (n : Nat) : Nat := ceilLog2Loop n n 0

/-- Modelled from the spec: the value of
`static_cast<std::uint64_t>(std::ceil(std::log2(num_cells)))`, which is computed by the
C++ library and not by code of this repository.  The spec gives
`bits(level) = ceil(log2(numCells(level)))` for a level with at least one cell, which is
`ceilLog2`, taken as the exact value (the rounding of `double` is not modelled).  For
`num_cells = 0` the source converts `-inf` to an unsigned integer, which has no defined
value: the model takes that value as the parameter `zero_bits`. -/
def bitsFor (zero_bits : Nat) (num_cells : Nat) : Nat :=
  if num_cells = 0 then zero_bits % WORD else ceilLog2 num_cells

/-- The loop of `makeLevelOffsets` from a given value of `sum_bits`: every iteration pushes
the current `sum_bits`, adds the bits of the level (`int += uint64_t`, so the sum is
converted back to `int`), and asserts `sum_bits < 64`; after the loop the final sum is
pushed. -/
def makeLevelOffsetsFrom (zero_bits : Nat) : Int → List Nat → Option (List Nat)
  | sum_bits, [] => some [toSizeT sum_bits]
  | sum_bits, num_cells :: rest =>
    let bits := bitsFor zero_bits num_cells
    let next := wrapInt32 (sum_bits + bits)
    if next < 64 then
      (makeLevelOffsetsFrom zero_bits next rest).map (fun offsets => toSizeT sum_bits :: offsets)
    else none

/-- `makeLevelOffsets`: `sum_bits` starts at `0`. -/
def makeLevelOffsets (zero_bits : Nat) (level_to_num_cells : List Nat) : Option (List Nat) :=
  makeLevelOffsetsFrom zero_bits 0 level_to_num_cells

/-- Modelled from the spec: `util::for_each_pair` (`util/for_each_pair.hpp`, not part of the
sources at hand) calls the function on every pair of adjacent elements, in order; the spec
has one mask per level, between `level_offsets[level]` and `level_offsets[level+1]`.  The
function may fail, and the first failure aborts. -/
def for_each_pair {α β : Type} (f : α → α → Option β) : List α → Option (List β)
  | a :: b :: rest =>
    match f a b with
    | none => none
    | some m => (for_each_pair f (b :: rest)).map (fun ms => m :: ms)
  | _ => some []

/-- The body of the lambda of `makeLevelMasks`: both offsets are asserted to be below
`sizeof(PartitionID)*8`, and the mask is `((1UL << next_offset) - 1) ^ ((1UL << offset) - 1)`. -/
def levelMask (offset next_offset : Nat) : Option Nat :=
  if offset < NUM_PARTITION_BITS then
    let mask := (1 <<< offset) - 1
    if next_offset < NUM_PARTITION_BITS then
      let next_mask := (1 <<< next_offset) - 1
      some (next_mask ^^^ mask)
    else none
  else none

/-- `makeLevelMasks`. -/
def makeLevelMasks (level_offsets : List Nat) : Option (List Nat) :=
  for_each_pair levelMask level_offsets

/-- The inner loop of `makeBitToLevel`:
`for (idx = bits; idx < NUM_PARTITION_BITS; ++idx) bit_to_level[idx] = l`. -/
def markBits (bit_to_level : List Nat) (bits l : Nat) : List Nat :=
  (List.range NUM_PARTITION_BITS).map
    (fun idx => if bits ≤ idx then l else bit_to_level.getD idx 0)

/-- The outer loop of `makeBitToLevel`, with its counter `l` of type `LevelID`. -/
def makeBitToLevelFrom : List Nat → Nat → List Nat → List Nat
  | [], _, bit_to_level => bit_to_level
  | bits :: rest, l, bit_to_level =>
    makeBitToLevelFrom rest ((l + 1) % LEVEL_WORD) (markBits bit_to_level bits l)

/-- `makeBitToLevel`.  The array starts uninitialised in the source; the first offset is
always `0`, so that every entry is written in the first iteration, and the model starts
from zeros. -/
def makeBitToLevel (level_offsets : List Nat) : List Nat :=
  makeBitToLevelFrom level_offsets 0 (List.replicate NUM_PARTITION_BITS 0)

/-- The data members of `PackedMultiLevelPartition`. -/
structure PackedMultiLevelPartition where
  partition : List Nat
  level_offsets : List Nat
  level_masks : List Nat
  bit_to_level : List Nat
  deriving DecidableEq, Repr

namespace PackedMultiLevelPartition

/-- `LevelIDToIndex`: `l - 1`, computed in `int` and returned as `std::size_t`. -/
def LevelIDToIndex (l : Nat) : Nat :=
  if l = 0 then WORD - 1 else l - 1

/-- `GetCell`: the masked field shifted down, returned as a `CellID`. -/
def GetCell (self : PackedMultiLevelPartition) (l node : Nat) : Nat :=
  let p := self.partition.getD node 0
  let idx := LevelIDToIndex l
  let masked := p &&& self.level_masks.getD idx 0
  (masked >>> self.level_offsets.getD idx 0) % CELL_WORD

/-- `GetHighestDifferentLevel`. -/
def GetHighestDifferentLevel (self : PackedMultiLevelPartition) (first second : Nat) : Nat :=
  if self.partition.getD first 0 = self.partition.getD second 0 then 0
  else
    let msb := detail.highestMSB (self.partition.getD first 0 ^^^ self.partition.getD second 0)
    self.bit_to_level.getD msb 0

/-- `GetQueryLevel`. -/
def GetQueryLevel (self : PackedMultiLevelPartition) (start target node : Nat) : Nat :=
  min (self.GetHighestDifferentLevel start node) (self.GetHighestDifferentLevel target node)

/-- `GetNumberOfLevels`. -/
def GetNumberOfLevels (self : PackedMultiLevelPartition) : Nat :=
  self.level_offsets.length

/-- `GetSenitileNode`: `partition.size() - 1`, in unsigned arithmetic, returned as a
`NodeID`. -/
def GetSenitileNode (self : PackedMultiLevelPartition) : Nat :=
  (if self.partition.length = 0 then WORD - 1 else self.partition.length - 1) % NODE_WORD

/-- `GetNumberOfCells`: the body is the single statement
`auto max_id = GetCell(level, GetSenitileNode());` and control then reaches the end of the
function: there is no `return`, so no value is handed to the caller. -/
def GetNumberOfCells (self : PackedMultiLevelPartition) (level : Nat) : Option Nat :=
  let _max_id := self.GetCell level self.GetSenitileNode
  none

/-- `SetCellID`.  `junk` is what a read past the end of a table yields. -/
def SetCellID (junk : Nat) (self : PackedMultiLevelPartition) (l node cell_id : Nat) :
    PackedMultiLevelPartition :=
  let lidx := LevelIDToIndex l
  let shifted_id := (cell_id <<< self.level_offsets.getD lidx junk) % WORD
  let cleared_cell := self.partition.getD node junk &&& (self.level_masks.getD lidx junk ^^^ (WORD - 1))
  { self with partition := self.partition.set node (cleared_cell ||| shifted_id) }

/-- One `std::stable_sort` pass of `initializePartitionIDs`, with the comparator
`partition[lhs] < partition[rhs]`: insertion of every element before the first one whose
key is not smaller keeps elements of equal key in their previous order. -/
def stableSortBy (partition : List Nat) (permutation : List Nat) : List Nat :=
  permutation.insertionSort (fun lhs rhs => ¬ (partition.getD rhs 0 < partition.getD lhs 0))

/-- The sorting loop `for (const auto &partition : partitions) std::stable_sort(...)`. -/
def sortPermutation (partitions : List (List Nat)) (permutation : List Nat) : List Nat :=
  partitions.foldl (fun perm partition => stableSortBy partition perm) permutation

/-- The inner loop of the top-down assignment, `for (const auto node : permutation)`:
`cell_id` is incremented when the raw id of `node` differs from `last_cell_id`, which the
loop never updates, and then stored with `SetCellID`. -/
def assignCells (junk : Nat) (partition : List Nat) (level last_cell_id : Nat) :
    List Nat → Nat → PackedMultiLevelPartition → PackedMultiLevelPartition
  | [], _, self => self
  | node :: rest, cell_id, self =>
    let cell_id := if last_cell_id ≠ partition.getD node 0 then (cell_id + 1) % CELL_WORD else cell_id
    assignCells junk partition level last_cell_id rest cell_id (SetCellID junk self level node cell_id)

/-- The outer loop of the top-down assignment, over the levels in reverse order, `level`
being decremented after every level.  `BOOST_ASSERT(permutation.size() > 0)`. -/
def assignLevels (junk : Nat) (permutation : List Nat) :
    List (List Nat) → Nat → PackedMultiLevelPartition → Option PackedMultiLevelPartition
  | [], _, self => some self
  | partition :: rest, level, self =>
    match permutation with
    | [] => none
    | front :: _ =>
      let last_cell_id := partition.getD front 0
      assignLevels junk permutation rest ((level + (LEVEL_WORD - 1)) % LEVEL_WORD)
        (assignCells junk partition level last_cell_id permutation 0 self)

/-- `initializePartitionIDs`.  `partitions.front()` needs a first level.  The packed array
is resized to `num_nodes + 1` zeros, the permutation is sorted by every level in turn, and
the levels are then assigned from the last one down, starting at
`level = partitions.size() + 1`. -/
def initializePartitionIDs (junk : Nat) (self : PackedMultiLevelPartition)
    (partitions : List (List Nat)) : Option PackedMultiLevelPartition :=
  match partitions with
  | [] => none
  | front :: _ =>
    let num_nodes := front.length
    let permutation := sortPermutation partitions (List.range num_nodes)
    let self := { self with partition := List.replicate (num_nodes + 1) 0 }
    assignLevels junk permutation partitions.reverse ((partitions.length + 1) % LEVEL_WORD) self

/-- The constructor: the geometry tables are made from `level_to_num_cells`, then
`initializePartitionIDs` runs. -/
def construct (zero_bits junk : Nat) (partitions : List (List Nat)) (level_to_num_cells : List Nat) :
    Option PackedMultiLevelPartition :=
  match makeLevelOffsets zero_bits level_to_num_cells with
  | none => none
  | some level_offsets =>
    match makeLevelMasks level_offsets with
    | none => none
    | some level_masks =>
      initializePartitionIDs junk
        { partition := [], level_offsets := level_offsets, level_masks := level_masks,
          bit_to_level := makeBitToLevel level_offsets } partitions

end PackedMultiLevelPartition

/-- The worked example of the comment in `initializePartitionIDs`: raw groupings of six
nodes at level 1 and level 2. -/
def workedPartitions : List (List Nat) := [[2, 1, 3, 4, 3, 4], [2, 2, 0, 1, 0, 1]]

/-- The number of distinct raw ids of the worked example at level 1 and level 2. -/
def workedNumCells : List Nat := [4, 3]

/-- Four nodes in two levels: every node is a cell of its own at level 1, and nodes 0 and 1
share a cell at level 2. -/
def pairPartitions : List (List Nat) := [[0, 1, 2, 3], [0, 0, 1, 2]]

/-- The number of distinct raw ids of `pairPartitions` at level 1 and level 2. -/
def pairNumCells : List Nat := [4, 3]

/-- Five nodes in three levels; levels 2 and 3 have the same three groups. -/
def gapPartitions : List (List Nat) := [[0, 1, 1, 2, 3], [0, 0, 0, 1, 2], [0, 0, 0, 1, 2]]

/-- The number of distinct raw ids of `gapPartitions` at levels 1, 2 and 3. -/
def gapNumCells : List Nat := [4, 3, 3]

/-- Raw groupings are nested: nodes with equal raw id at a level have equal raw id at
every coarser level (levels are listed finest first). -/
def rawNested (partitions : List (List Nat)) (num_nodes : Nat) : Prop :=
  ∀ k2 < partitions.length, ∀ k < k2, ∀ a < num_nodes, ∀ b < num_nodes,
      (partitions.getD k []).getD a 0 = (partitions.getD k []).getD b 0 →
      (partitions.getD k2 []).getD a 0 = (partitions.getD k2 []).getD b 0

instance rawNestedDecidable (partitions : List (List Nat)) (num_nodes : Nat) :
    Decidable (rawNested partitions num_nodes) := by
  unfold rawNested
  infer_instance

/-- The offsets in the words of the spec: `level_offsets[level] = sum(bits(1..level-1))`,
with a trailing entry equal to the grand total.  Entry `i` (from 0) is the sum of the
widths of the first `i` levels. -/
def specLevelOffsets (level_to_num_cells : List Nat) : List Nat :=
  (List.range (level_to_num_cells.length + 1)).map
    (fun i => ((level_to_num_cells.take i).map ceilLog2).sum)

/-- The sort key in the words of the spec: the raw id at level L, the raw id at level
L-1, ..., the raw id at level 1, and last the node id (levels are listed finest first). -/
def sortKey (partitions : List (List Nat)) (node : Nat) : List Nat :=
  partitions.reverse.map (fun partition => partition.getD node 0) ++ [node]

/-- The values of the variable `level` in the top-down assignment of
`initializePartitionIDs`, one for every raw grouping in the order of the loop (the last
level first): the given start value, decremented after every level.  They are the levels
passed to `SetCellID` (`assignLevels_eq_foldl`). -/
def assignedLevels : List (List Nat) → Nat → List Nat
  | [], _ => []
  | _ :: rest, level => level :: assignedLevels rest ((level + (LEVEL_WORD - 1)) % LEVEL_WORD)

end osrm.util

namespace osrm.extractor

/-- The data members of `NodeBasedEdge` (`include/extractor/node_based_edge.hpp`).
`NodeID` and `EdgeWeight` are 32-bit integers, unsigned and signed; the one-bit fields are
booleans; the members whose types are declared in other headers are kept as numbers. -/
structure NodeBasedEdge where
  source : Nat
  target : Nat
  name_id : Nat
  weight : Int
  duration : Int
  forward : Bool
  backward : Bool
  roundabout : Bool
  circular : Bool
  startpoint : Bool
  local_access_only : Bool
  is_split : Bool
  travel_mode : Nat
  lane_description_id : Nat
  road_classification : Nat
  deriving DecidableEq, Repr

/-- `NodeBasedEdge::operator<`. -/
def NodeBasedEdge.lt (self other : NodeBasedEdge) : Bool :=
  if self.source = other.source then
    if self.target = other.target then
      if self.weight = other.weight then
        self.forward && self.backward && ((!other.forward) || (!other.backward))
      else decide (self.weight < other.weight)
    else decide (self.target < other.target)
  else decide (self.source < other.source)

end osrm.extractor

namespace osrm.util

theorem ceilLog2Loop_eq_clog (n : Nat) : ∀ (fuel b : Nat), (∀ y < b, ¬ n ≤ 2 ^ y) →
    n ≤ 2 ^ (b + fuel) → ceilLog2Loop fuel n b = Nat.clog 2 n := by
  have key : ∀ b, (∀ y < b, ¬ n ≤ 2 ^ y) → n ≤ 2 ^ b → b = Nat.clog 2 n := by
    intro b hlow hb
    have h1 : Nat.clog 2 n ≤ b := (Nat.le_pow_iff_clog_le (by norm_num)).mp hb
    rcases Nat.lt_or_ge (Nat.clog 2 n) b with h | h
    · exact absurd (Nat.le_pow_clog (by norm_num) n) (hlow _ h)
    · omega
  intro fuel
  induction fuel with
  | zero => intro b hlow hb; exact key b hlow hb
  | succ fuel ih =>
    intro b hlow hb
    simp only [ceilLog2Loop]
    split
    · rename_i h; exact key b hlow h
    · rename_i h
      apply ih
      · intro y hy
        rcases Nat.lt_or_ge y b with h2 | h2
        · exact hlow y h2
        · have : y = b := by omega
          subst this; exact h
      · have : b + 1 + fuel = b + (fuel + 1) := by omega
        rw [this]; exact hb

theorem ceilLog2_eq_clog (n : Nat) : ceilLog2 n = Nat.clog 2 n :=
  ceilLog2Loop_eq_clog n n 0 (fun y hy => absurd hy (Nat.not_lt_zero y))
    (by rw [Nat.zero_add]; exact le_of_lt (Nat.lt_two_pow n))

theorem clog_two_eq_ceilLog2 : Nat.clog 2 = ceilLog2 :=
  funext (fun n => (ceilLog2_eq_clog n).symm)

theorem bitsFor_of_pos (zero_bits : Nat) {c : Nat} (h : c ≠ 0) :
    bitsFor zero_bits c = ceilLog2 c := by
  simp [bitsFor, h]

theorem makeLevelOffsetsFrom_zero_bits (zero_bits : Nat) (counts : List Nat) :
    ∀ s : Int, (∀ c ∈ counts, c ≠ 0) →
      makeLevelOffsetsFrom zero_bits s counts = makeLevelOffsetsFrom 0 s counts := by
  induction counts with
  | nil => intro s _; rfl
  | cons c rest ih =>
    intro s h
    have hc : c ≠ 0 := h c (List.mem_cons_self _ _)
    have hrest : ∀ d ∈ rest, d ≠ 0 := fun d hd => h d (List.mem_cons_of_mem _ hd)
    simp only [makeLevelOffsetsFrom, bitsFor_of_pos _ hc]
    split
    · rw [ih _ hrest]
    · rfl

theorem makeLevelOffsetsFrom_length (zero_bits : Nat) (counts : List Nat) :
    ∀ (s : Int) (offsets : List Nat), makeLevelOffsetsFrom zero_bits s counts = some offsets →
      offsets.length = counts.length + 1 := by
  induction counts with
  | nil =>
    intro s offsets h
    simp only [makeLevelOffsetsFrom, Option.some.injEq] at h
    subst h; rfl
  | cons c rest ih =>
    intro s offsets h
    simp only [makeLevelOffsetsFrom] at h
    split at h
    · rcases hr : makeLevelOffsetsFrom zero_bits (wrapInt32 (s + (bitsFor zero_bits c : Int))) rest with _ | tl
      · rw [hr] at h; simp at h
      · rw [hr] at h
        simp only [Option.map_some', Option.some.injEq] at h
        subst h
        simp [ih _ _ hr]
    · simp at h

theorem for_each_pair_length {α β : Type} (f : α → α → Option β) :
    ∀ (xs : List α) (ms : List β), for_each_pair f xs = some ms → ms.length = xs.length - 1 := by
  intro xs
  induction xs with
  | nil => intro ms h; simp [for_each_pair] at h; subst h; rfl
  | cons a rest ih =>
    intro ms h
    cases rest with
    | nil => simp [for_each_pair] at h; subst h; rfl
    | cons b rest2 =>
      simp only [for_each_pair] at h
      rcases hf : f a b with _ | m
      · rw [hf] at h; simp at h
      · rw [hf] at h
        rcases hr : for_each_pair f (b :: rest2) with _ | tl
        · rw [hr] at h; simp at h
        · rw [hr] at h
          simp only [Option.map_some', Option.some.injEq] at h
          subst h
          have := ih tl hr
          simp at this ⊢
          exact this

namespace PackedMultiLevelPartition

theorem SetCellID_tables (junk : Nat) (self : PackedMultiLevelPartition) (l node c : Nat) :
    (SetCellID junk self l node c).level_offsets = self.level_offsets ∧
    (SetCellID junk self l node c).level_masks = self.level_masks ∧
    (SetCellID junk self l node c).bit_to_level = self.bit_to_level ∧
    (SetCellID junk self l node c).partition.length = self.partition.length := by
  simp [SetCellID]

theorem SetCellID_other (junk : Nat) (self : PackedMultiLevelPartition) (l node c v d : Nat)
    (h : v ≠ node) :
    (SetCellID junk self l node c).partition.getD v d = self.partition.getD v d := by
  simp only [SetCellID, List.getD_eq_getElem?_getD]
  rw [List.getElem?_set_ne (Ne.symm h)]

theorem SetCellID_junk (junk : Nat) (self : PackedMultiLevelPartition) (l node c : Nat)
    (hoff : LevelIDToIndex l < self.level_offsets.length)
    (hnode : node < self.partition.length)
    (hmask : LevelIDToIndex l < self.level_masks.length ∨ self.partition.getD node 0 = 0) :
    SetCellID junk self l node c = SetCellID 0 self l node c := by
  have e1 : ∀ d, self.level_offsets.getD (LevelIDToIndex l) d
      = self.level_offsets[LevelIDToIndex l] := fun d => List.getD_eq_getElem _ _ hoff
  have e2 : ∀ d, self.partition.getD node d = self.partition[node] :=
    fun d => List.getD_eq_getElem _ _ hnode
  simp only [SetCellID, e1, e2]
  rcases hmask with hm | hz
  · have e3 : ∀ d, self.level_masks.getD (LevelIDToIndex l) d
        = self.level_masks[LevelIDToIndex l] := fun d => List.getD_eq_getElem _ _ hm
    simp only [e3]
  · rw [e2 0] at hz
    simp only [hz, Nat.zero_and]

theorem assignCells_tables (junk : Nat) (raw : List Nat) (level last : Nat) :
    ∀ (perm : List Nat) (cell_id : Nat) (self : PackedMultiLevelPartition),
      (assignCells junk raw level last perm cell_id self).level_offsets = self.level_offsets ∧
      (assignCells junk raw level last perm cell_id self).level_masks = self.level_masks ∧
      (assignCells junk raw level last perm cell_id self).bit_to_level = self.bit_to_level ∧
      (assignCells junk raw level last perm cell_id self).partition.length
        = self.partition.length := by
  intro perm
  induction perm with
  | nil => intro cell_id self; simp [assignCells]
  | cons node rest ih =>
    intro cell_id self
    simp only [assignCells]
    obtain ⟨a, b, c, d⟩ := ih (if last ≠ raw.getD node 0 then (cell_id + 1) % CELL_WORD else cell_id)
      (SetCellID junk self level node
        (if last ≠ raw.getD node 0 then (cell_id + 1) % CELL_WORD else cell_id))
    obtain ⟨a2, b2, c2, d2⟩ := SetCellID_tables junk self level node
      (if last ≠ raw.getD node 0 then (cell_id + 1) % CELL_WORD else cell_id)
    exact ⟨a.trans a2, b.trans b2, c.trans c2, d.trans d2⟩

theorem assignCells_junk (junk : Nat) (raw : List Nat) (level last : Nat) :
    ∀ (perm : List Nat) (cell_id : Nat) (self : PackedMultiLevelPartition),
      LevelIDToIndex level < self.level_offsets.length →
      (∀ v ∈ perm, v < self.partition.length) →
      (LevelIDToIndex level < self.level_masks.length ∨
        (perm.Nodup ∧ ∀ v ∈ perm, self.partition.getD v 0 = 0)) →
      assignCells junk raw level last perm cell_id self
        = assignCells 0 raw level last perm cell_id self := by
  intro perm
  induction perm with
  | nil => intro cell_id self _ _ _; rfl
  | cons node rest ih =>
    intro cell_id self hoff hrange hmask
    simp only [assignCells]
    have hnode : node < self.partition.length := hrange node (List.mem_cons_self _ _)
    have hm1 : LevelIDToIndex level < self.level_masks.length ∨ self.partition.getD node 0 = 0 := by
      rcases hmask with h | ⟨_, hz⟩
      · exact Or.inl h
      · exact Or.inr (hz node (List.mem_cons_self _ _))
    rw [SetCellID_junk junk self level node _ hoff hnode hm1]
    obtain ⟨a2, b2, _, d2⟩ := SetCellID_tables 0 self level node
      (if last ≠ raw.getD node 0 then (cell_id + 1) % CELL_WORD else cell_id)
    apply ih
    · rw [a2]; exact hoff
    · intro v hv; rw [d2]; exact hrange v (List.mem_cons_of_mem _ hv)
    · rcases hmask with h | ⟨hnd, hz⟩
      · left; rw [b2]; exact h
      · right
        refine ⟨(List.nodup_cons.mp hnd).2, ?_⟩
        intro v hv
        have hne : v ≠ node := by
          rintro rfl
          exact (List.nodup_cons.mp hnd).1 hv
        rw [SetCellID_other 0 self level node _ v 0 hne]
        exact hz v (List.mem_cons_of_mem _ hv)

theorem assignLevels_junk (junk : Nat) (perm : List Nat) :
    ∀ (levels : List (List Nat)) (level : Nat) (self : PackedMultiLevelPartition),
      levels.length ≤ level → level < LEVEL_WORD →
      level ≤ self.level_offsets.length → level ≤ self.level_masks.length + 1 →
      (∀ v ∈ perm, v < self.partition.length) →
      (level ≤ self.level_masks.length ∨
        (perm.Nodup ∧ ∀ v ∈ perm, self.partition.getD v 0 = 0)) →
      assignLevels junk perm levels level self = assignLevels 0 perm levels level self := by
  intro levels
  induction levels with
  | nil => intro level self _ _ _ _ _ _; rfl
  | cons raw rest ih =>
    intro level self hlen hlt hoff hmask1 hrange hmask
    have hpos : 1 ≤ level := by simp at hlen; omega
    have hidx : LevelIDToIndex level = level - 1 := by
      simp [LevelIDToIndex]; omega
    cases perm with
    | nil => simp [assignLevels]
    | cons front tl =>
      simp only [assignLevels]
      have hdec : (level + (LEVEL_WORD - 1)) % LEVEL_WORD = level - 1 := by
        simp only [LEVEL_WORD] at hlt ⊢
        omega
      rw [hdec]
      rw [assignCells_junk junk raw level (raw.getD front 0) (front :: tl) 0 self
        (by rw [hidx]; omega) hrange
        (by
          rcases hmask with h | h
          · left; rw [hidx]; omega
          · exact Or.inr h)]
      obtain ⟨a, b, _, d⟩ := assignCells_tables 0 raw level (raw.getD front 0) (front :: tl) 0 self
      apply ih
      · simp at hlen; omega
      · omega
      · rw [a]; omega
      · rw [b]; omega
      · intro v hv; rw [d]; exact hrange v hv
      · left; rw [b]; omega

theorem sortPermutation_perm (partitions : List (List Nat)) :
    ∀ perm : List Nat, (sortPermutation partitions perm).Perm perm := by
  induction partitions with
  | nil => intro perm; exact List.Perm.refl _
  | cons p rest ih =>
    intro perm
    simp only [sortPermutation, List.foldl_cons]
    exact (ih _).trans (List.perm_insertionSort _ _)

theorem construct_junk (zero_bits junk : Nat) (partitions : List (List Nat))
    (level_to_num_cells : List Nat) (hlen : partitions.length = level_to_num_cells.length)
    (hL : partitions.length + 1 < LEVEL_WORD) :
    construct zero_bits junk partitions level_to_num_cells
      = construct zero_bits 0 partitions level_to_num_cells := by
  simp only [construct]
  rcases ho : makeLevelOffsets zero_bits level_to_num_cells with _ | offsets
  · rfl
  · rcases hm : makeLevelMasks offsets with _ | masks
    · simp only [hm]
    · simp only [hm]
      have holen := makeLevelOffsetsFrom_length zero_bits level_to_num_cells 0 offsets ho
      have hmlen := for_each_pair_length levelMask offsets masks hm
      cases partitions with
      | nil => rfl
      | cons front rest =>
        simp only [initializePartitionIDs]
        have hperm := sortPermutation_perm (front :: rest) (List.range front.length)
        have hmod : ((front :: rest).length + 1) % LEVEL_WORD = (front :: rest).length + 1 :=
          Nat.mod_eq_of_lt hL
        rw [hmod]
        apply assignLevels_junk
        · simp
        · exact hL
        · simp only [holen, ← hlen]; exact Nat.le_refl _
        · simp only [hmlen, holen, ← hlen]; omega
        · intro v hv
          have : v ∈ List.range front.length := hperm.mem_iff.mp hv
          simp at this ⊢; omega
        · right
          refine ⟨hperm.nodup_iff.mpr (List.nodup_range _), ?_⟩
          intro v hv
          have : v ∈ List.range front.length := hperm.mem_iff.mp hv
          simp only [List.mem_range] at this
          simp only [List.getD_eq_getElem?_getD, List.getElem?_replicate]
          split <;> rfl

end PackedMultiLevelPartition

theorem wrapInt32_of_small (x : Int) (h0 : 0 ≤ x) (h1 : x < 2 ^ 31) : wrapInt32 x = x := by
  have e : x % 2 ^ 32 = x := Int.emod_eq_of_lt h0 (by omega)
  simp only [wrapInt32, e]
  rw [if_pos h1]

theorem makeLevelOffsetsFrom_over_budget (zero_bits : Nat) (counts : List Nat) :
    ∀ s : Int, 0 ≤ s → s < 64 → (∀ c ∈ counts, 1 ≤ c ∧ c < 2 ^ 64) →
      64 ≤ s + ((counts.map (Nat.clog 2)).sum : Nat) →
      makeLevelOffsetsFrom zero_bits s counts = none := by
  induction counts with
  | nil =>
    intro s _ h1 _ h2
    simp at h2
    omega
  | cons c rest ih =>
    intro s h0 h1 hc h2
    have hc1 := hc c (List.mem_cons_self _ _)
    have hb : Nat.clog 2 c ≤ 64 := (Nat.le_pow_iff_clog_le (by norm_num)).mp (le_of_lt hc1.2)
    have hw : wrapInt32 (s + (Nat.clog 2 c : Int)) = s + (Nat.clog 2 c : Int) :=
      wrapInt32_of_small _ (by omega) (by omega)
    simp only [makeLevelOffsetsFrom, bitsFor_of_pos zero_bits (show c ≠ 0 by omega),
      ceilLog2_eq_clog, hw]
    split
    · rename_i hlt
      rw [ih (s + (Nat.clog 2 c : Int)) (by omega) hlt
        (fun d hd => hc d (List.mem_cons_of_mem _ hd))
        (by simp only [List.map_cons, List.sum_cons] at h2; push_cast at h2 ⊢; omega)]
      rfl
    · rfl

theorem wrapInt32_add_zero_bits (s : Int) (z : Nat) (hz : z % 2 ^ 32 = 0) :
    wrapInt32 (s + ((z % WORD : Nat) : Int)) = wrapInt32 s := by
  obtain ⟨k, hk⟩ : ∃ k : Nat, z % WORD = 2 ^ 32 * k := by
    refine ⟨(z % WORD) / 2 ^ 32, ?_⟩
    simp only [WORD]
    omega
  have : (s + ((z % WORD : Nat) : Int)) % 2 ^ 32 = s % 2 ^ 32 := by
    rw [hk]; push_cast
    exact Int.add_mul_emod_self_left s (2 ^ 32) k
  simp only [wrapInt32, this]

theorem makeLevelOffsetsFrom_zero_as_one (zero_bits : Nat) (hz : zero_bits % 2 ^ 32 = 0)
    (counts : List Nat) : ∀ s : Int,
      makeLevelOffsetsFrom zero_bits s counts
        = makeLevelOffsetsFrom zero_bits s (counts.map (fun c => if c = 0 then 1 else c)) := by
  induction counts with
  | nil => intro s; rfl
  | cons c rest ih =>
    intro s
    by_cases hc : c = 0
    · subst hc
      have e1 : bitsFor zero_bits 0 = zero_bits % WORD := by simp [bitsFor]
      have e2 : bitsFor zero_bits 1 = 0 := by simp [bitsFor, ceilLog2, ceilLog2Loop]
      simp only [List.map_cons, if_true, makeLevelOffsetsFrom, e1, e2,
        wrapInt32_add_zero_bits s zero_bits hz, Nat.cast_zero, add_zero, ih]
    · simp only [List.map_cons, if_neg hc, makeLevelOffsetsFrom, ih]

/-- C8, as stated, fails: `makeLevelOffsets` has no check for a level with zero cells.
When the width computed for such a level is 0, or `2 ^ 63` (which leaves the 32-bit sum
unchanged), the counts 4, 0, 3 are accepted. -/
theorem zero_cells_not_rejected :
    makeLevelOffsets 0 [4, 0, 3] = some [0, 2, 2, 4] ∧
    makeLevelOffsets (2 ^ 63) [4, 0, 3] = some [0, 2, 2, 4] := by
  constructor <;> decide!

/-- C8, amended: a level with zero cells goes through the same bit-width computation and
the same budget assertion as every level.  Whenever the width computed for it is a
multiple of `2 ^ 32`, so that the 32-bit `sum_bits` is unchanged, `makeLevelOffsets`
accepts or rejects the counts exactly as it does with every 0 replaced by 1, and gives
the same offsets: the level is laid out with width 0. -/
theorem zero_cells_as_one_cell (zero_bits : Nat) (hz : zero_bits % 2 ^ 32 = 0)
    (level_to_num_cells : List Nat) :
    makeLevelOffsets zero_bits level_to_num_cells
      = makeLevelOffsets zero_bits (level_to_num_cells.map (fun c => if c = 0 then 1 else c)) :=
  makeLevelOffsetsFrom_zero_as_one zero_bits hz level_to_num_cells 0

theorem zero_cells_as_one_cell_witness :
    2 ^ 63 % 2 ^ 32 = 0 ∧
    makeLevelOffsets (2 ^ 63) [4, 0, 3] = makeLevelOffsets (2 ^ 63) [4, 1, 3] :=
  ⟨by decide, zero_cells_as_one_cell (2 ^ 63) (by decide) [4, 0, 3]⟩

namespace PackedMultiLevelPartition

/-- C9: symmetry of `GetHighestDifferentLevel`, for every packed array, every geometry
and every pair of nodes. -/
theorem GetHighestDifferentLevel_symm (self : PackedMultiLevelPartition) (a b : Nat) :
    self.GetHighestDifferentLevel a b = self.GetHighestDifferentLevel b a := by
  unfold GetHighestDifferentLevel
  by_cases h : self.partition.getD a 0 = self.partition.getD b 0
  · rw [if_pos h, if_pos h.symm]
  · rw [if_neg h, if_neg (fun e => h e.symm), Nat.xor_comm]

/-- C10: `GetHighestDifferentLevel` returns 0 whenever the packed integers of the two
nodes are equal, and in particular when a node is compared with itself. -/
theorem GetHighestDifferentLevel_same_packed (self : PackedMultiLevelPartition) (a b : Nat)
    (h : self.partition.getD a 0 = self.partition.getD b 0) :
    self.GetHighestDifferentLevel a b = 0 ∧ self.GetHighestDifferentLevel a a = 0 := by
  unfold GetHighestDifferentLevel
  exact ⟨if_pos h, if_pos rfl⟩

theorem GetHighestDifferentLevel_same_packed_witness :
    (PackedMultiLevelPartition.mk [80, 60, 0, 20, 0, 40, 0] [0, 2, 4] [3, 12]
        (makeBitToLevel [0, 2, 4])).partition.getD 2 0
      = (PackedMultiLevelPartition.mk [80, 60, 0, 20, 0, 40, 0] [0, 2, 4] [3, 12]
        (makeBitToLevel [0, 2, 4])).partition.getD 4 0 ∧
    (PackedMultiLevelPartition.mk [80, 60, 0, 20, 0, 40, 0] [0, 2, 4] [3, 12]
        (makeBitToLevel [0, 2, 4])).GetHighestDifferentLevel 2 4 = 0 ∧
    (PackedMultiLevelPartition.mk [80, 60, 0, 20, 0, 40, 0] [0, 2, 4] [3, 12]
        (makeBitToLevel [0, 2, 4])).GetHighestDifferentLevel 2 2 = 0 :=
  ⟨rfl, GetHighestDifferentLevel_same_packed _ 2 4 rfl⟩

theorem construct_parameters (zero_bits junk : Nat) (partitions : List (List Nat))
    (level_to_num_cells : List Nat) (hlen : partitions.length = level_to_num_cells.length)
    (hL : partitions.length + 1 < LEVEL_WORD) (hpos : ∀ c ∈ level_to_num_cells, c ≠ 0) :
    construct zero_bits junk partitions level_to_num_cells
      = construct 0 0 partitions level_to_num_cells := by
  rw [construct_junk zero_bits junk _ _ hlen hL]
  simp only [construct, makeLevelOffsets, makeLevelOffsetsFrom_zero_bits zero_bits _ 0 hpos]

theorem construct_worked (zero_bits junk : Nat) :
    construct zero_bits junk workedPartitions workedNumCells
      = some ⟨[80, 60, 0, 20, 0, 40, 0], [0, 2, 4], [3, 12],
          [0, 0, 1, 1] ++ List.replicate 60 2⟩ := by
  rw [construct_parameters zero_bits junk _ _ (by decide) (by decide) (by decide)]
  decide!

theorem construct_pair (zero_bits junk : Nat) :
    construct zero_bits junk pairPartitions pairNumCells
      = some ⟨[0, 4, 24, 44, 0], [0, 2, 4], [3, 12],
          [0, 0, 1, 1] ++ List.replicate 60 2⟩ := by
  rw [construct_parameters zero_bits junk _ _ (by decide) (by decide) (by decide)]
  decide!

theorem construct_gap (zero_bits junk : Nat) :
    construct zero_bits junk gapPartitions gapNumCells
      = some ⟨[0, 4, 8, 92, 176, 0], [0, 2, 4, 6], [3, 12, 48],
          [0, 0, 1, 1, 2, 2] ++ List.replicate 58 3⟩ := by
  rw [construct_parameters zero_bits junk _ _ (by decide) (by decide) (by decide)]
  decide!

/-- C1: containment does not hold for the constructed partition of the worked example.
Nodes 0 and 1 are in the same cell at level 1 (the field of level 1 is never written and
is 0 for every node), and in different cells at level 2. -/
theorem containment_fails_on_worked_example (zero_bits junk : Nat) :
    ∃ p, construct zero_bits junk workedPartitions workedNumCells = some p ∧
      p.GetCell 1 0 = p.GetCell 1 1 ∧ p.GetCell 2 0 ≠ p.GetCell 2 1 :=
  ⟨_, construct_worked zero_bits junk, by decide!, by decide!⟩

/-- C2: compaction does not preserve the raw grouping of the worked example, whose raw
groupings are nested.  At level 1 nodes 0 and 1 get the same cell although their raw ids
differ; at level 2 nodes 3 and 5 get different cells although their raw ids are equal. -/
theorem grouping_not_preserved_on_worked_example (zero_bits junk : Nat) :
    rawNested workedPartitions 6 ∧
    ∃ p, construct zero_bits junk workedPartitions workedNumCells = some p ∧
      (p.GetCell 1 0 = p.GetCell 1 1 ∧
        (workedPartitions.getD 0 []).getD 0 0 ≠ (workedPartitions.getD 0 []).getD 1 0) ∧
      (p.GetCell 2 3 ≠ p.GetCell 2 5 ∧
        (workedPartitions.getD 1 []).getD 3 0 = (workedPartitions.getD 1 []).getD 5 0) :=
  ⟨by decide!, _, construct_worked zero_bits junk, by decide!, by decide!⟩

/-- C3: `GetHighestDifferentLevel` does not return the greatest level at which the cells
differ.  In the partition constructed from `pairPartitions` (total bits 4) the packed
values of nodes 0 and 1 are below `2 ^ 4`, the nodes are in different cells at level 2,
the greatest level, and the function returns 1. -/
theorem GetHighestDifferentLevel_wrong_on_pair (zero_bits junk : Nat) :
    ∃ p, construct zero_bits junk pairPartitions pairNumCells = some p ∧
      p.level_offsets = [0, 2, 4] ∧
      p.partition.getD 0 0 < 2 ^ 4 ∧ p.partition.getD 1 0 < 2 ^ 4 ∧
      p.GetCell 2 0 ≠ p.GetCell 2 1 ∧
      p.GetHighestDifferentLevel 0 1 = 1 :=
  ⟨_, construct_pair zero_bits junk, by decide!, by decide!, by decide!, by decide!, by decide!⟩

/-- The same failure without the construction: with the geometry of one level of four
cells (offsets 0 and 2, mask 3) and the packed values 0 and 1, the cells at level 1 differ
and `GetHighestDifferentLevel` returns 0. -/
theorem GetHighestDifferentLevel_wrong_on_one_level :
    makeLevelOffsets 0 [4] = some [0, 2] ∧ makeLevelMasks [0, 2] = some [3] ∧
    (PackedMultiLevelPartition.mk [0, 1] [0, 2] [3] (makeBitToLevel [0, 2])).GetCell 1 0
      ≠ (PackedMultiLevelPartition.mk [0, 1] [0, 2] [3] (makeBitToLevel [0, 2])).GetCell 1 1 ∧
    (PackedMultiLevelPartition.mk [0, 1] [0, 2] [3]
      (makeBitToLevel [0, 2])).GetHighestDifferentLevel 0 1 = 0 :=
  ⟨by decide!, by decide!, by decide!, by decide!⟩

/-- C4: `GetNumberOfCells` hands no value to its caller, and the value it computes from
the sentinel does not bound the cell ids: in the worked example the sentinel is in cell 0
at level 2, so that value plus one is 1, while node 1 is in cell 3. -/
theorem GetNumberOfCells_on_worked_example (zero_bits junk : Nat) :
    ∃ p, construct zero_bits junk workedPartitions workedNumCells = some p ∧
      p.GetNumberOfCells 2 = none ∧
      p.GetCell 2 p.GetSenitileNode + 1 = 1 ∧ p.GetCell 2 1 = 3 :=
  ⟨_, construct_worked zero_bits junk, by decide!, by decide!, by decide!⟩

/-- C5: the packed array of the worked example has `6 + 1` entries, and its last entry,
the sentinel, is never written: it is in cell 0 at level 2, where the real nodes have the
cells 0, 3, 0, 1, 0, 2. -/
theorem sentinel_not_maximum_on_worked_example (zero_bits junk : Nat) :
    ∃ p, construct zero_bits junk workedPartitions workedNumCells = some p ∧
      p.partition.length = 6 + 1 ∧ p.GetSenitileNode = 6 ∧
      p.GetCell 2 6 = 0 ∧ (List.range 6).map (p.GetCell 2) = [0, 3, 0, 1, 0, 2] :=
  ⟨_, construct_worked zero_bits junk, by decide!, by decide!, by decide!, by decide!⟩

/-- C6: cell ids are not dense.  The raw groupings `gapPartitions` are nested and have
4, 3 and 3 distinct ids; at level 3 the five nodes get the cell ids 0, 0, 0, 1, 3, so that
id 2 is skipped. -/
theorem cell_ids_not_dense_on_gap (zero_bits junk : Nat) :
    rawNested gapPartitions 5 ∧
    ∃ p, construct zero_bits junk gapPartitions gapNumCells = some p ∧
      (List.range 5).map (p.GetCell 3) = [0, 0, 0, 1, 3] :=
  ⟨by decide!, _, construct_gap zero_bits junk, by decide!⟩

end PackedMultiLevelPartition

namespace PackedMultiLevelPartition

/-- C11: `GetQueryLevel` is the minimum of the two `GetHighestDifferentLevel` values. -/
theorem GetQueryLevel_eq_min (self : PackedMultiLevelPartition) (s t n : Nat) :
    self.GetQueryLevel s t n
      = min (self.GetHighestDifferentLevel s n) (self.GetHighestDifferentLevel t n) := rfl

theorem assignLevels_tables (junk : Nat) (perm : List Nat) :
    ∀ (levels : List (List Nat)) (level : Nat) (self p : PackedMultiLevelPartition),
      assignLevels junk perm levels level self = some p →
      p.level_offsets = self.level_offsets ∧ p.level_masks = self.level_masks ∧
      p.bit_to_level = self.bit_to_level ∧ p.partition.length = self.partition.length := by
  intro levels
  induction levels with
  | nil =>
    intro level self p h
    simp only [assignLevels, Option.some.injEq] at h
    subst h
    exact ⟨rfl, rfl, rfl, rfl⟩
  | cons raw rest ih =>
    intro level self p h
    cases perm with
    | nil => simp [assignLevels] at h
    | cons front tl =>
      simp only [assignLevels] at h
      obtain ⟨a, b, c, d⟩ := ih _ _ _ h
      obtain ⟨a2, b2, c2, d2⟩ :=
        assignCells_tables junk raw level (raw.getD front 0) (front :: tl) 0 self
      exact ⟨a.trans a2, b.trans b2, c.trans c2, d.trans d2⟩

theorem construct_tables (zero_bits junk : Nat) (partitions : List (List Nat))
    (level_to_num_cells : List Nat) (p : PackedMultiLevelPartition)
    (h : construct zero_bits junk partitions level_to_num_cells = some p) :
    makeLevelOffsets zero_bits level_to_num_cells = some p.level_offsets ∧
    makeLevelMasks p.level_offsets = some p.level_masks ∧
    p.bit_to_level = makeBitToLevel p.level_offsets := by
  simp only [construct] at h
  rcases ho : makeLevelOffsets zero_bits level_to_num_cells with _ | offsets
  · rw [ho] at h; simp at h
  · rw [ho] at h
    simp only at h
    rcases hm : makeLevelMasks offsets with _ | masks
    · rw [hm] at h; simp at h
    · rw [hm] at h
      simp only at h
      cases partitions with
      | nil => simp [initializePartitionIDs] at h
      | cons front rest =>
        simp only [initializePartitionIDs] at h
        obtain ⟨a, b, c, _⟩ := assignLevels_tables _ _ _ _ _ _ h
        simp only at a b c
        rw [a, b, c]
        exact ⟨rfl, hm, rfl⟩

/-- C20: for every accepted input `GetNumberOfLevels` is the length of `level_offsets`,
which is `len(level_to_num_cells) + 1`; the levels from 1 on whose index is inside
`level_masks`, the ones `GetCell` can decode, are those up to `GetNumberOfLevels() - 1`. -/
theorem GetNumberOfLevels_constructed (zero_bits junk : Nat) (partitions : List (List Nat))
    (level_to_num_cells : List Nat) (p : PackedMultiLevelPartition)
    (h : construct zero_bits junk partitions level_to_num_cells = some p) :
    p.GetNumberOfLevels = p.level_offsets.length ∧
    p.GetNumberOfLevels = level_to_num_cells.length + 1 ∧
    ∀ l, 1 ≤ l → (LevelIDToIndex l < p.level_masks.length ↔ l ≤ p.GetNumberOfLevels - 1) := by
  obtain ⟨ho, hm, _⟩ := construct_tables zero_bits junk partitions level_to_num_cells p h
  have holen := makeLevelOffsetsFrom_length zero_bits level_to_num_cells 0 _ ho
  have hmlen := for_each_pair_length levelMask _ _ hm
  refine ⟨rfl, holen, ?_⟩
  intro l hl
  have hidx : LevelIDToIndex l = l - 1 := by
    simp [LevelIDToIndex]; omega
  simp only [GetNumberOfLevels, hidx, hmlen, holen]
  omega

theorem GetNumberOfLevels_constructed_witness :
    construct 0 0 workedPartitions workedNumCells
      = some ⟨[80, 60, 0, 20, 0, 40, 0], [0, 2, 4], [3, 12],
          [0, 0, 1, 1] ++ List.replicate 60 2⟩ ∧
    (PackedMultiLevelPartition.mk [80, 60, 0, 20, 0, 40, 0] [0, 2, 4] [3, 12]
      ([0, 0, 1, 1] ++ List.replicate 60 2)).GetNumberOfLevels = 2 + 1 :=
  ⟨construct_worked 0 0,
    (GetNumberOfLevels_constructed 0 0 workedPartitions workedNumCells _
      (construct_worked 0 0)).2.1⟩

end PackedMultiLevelPartition

theorem toSizeT_natCast (n : Nat) (h : n < 2 ^ 64) : toSizeT (n : Int) = n := by
  have e : ((n : Int) % 2 ^ 64) = (n : Int) := Int.emod_eq_of_lt (by omega) (by omega)
  simp only [toSizeT, e, Int.toNat_ofNat]

theorem makeLevelOffsetsFrom_eq (zero_bits : Nat) (counts : List Nat) :
    ∀ s : Nat, (∀ c ∈ counts, c ≠ 0) → s + (counts.map ceilLog2).sum < 64 →
      makeLevelOffsetsFrom zero_bits (s : Int) counts
        = some ((List.range (counts.length + 1)).map
            (fun i => s + ((counts.take i).map ceilLog2).sum)) := by
  induction counts with
  | nil =>
    intro s _ hs
    simp only [List.map_nil, List.sum_nil, Nat.add_zero] at hs
    simp [makeLevelOffsetsFrom, toSizeT_natCast s (by omega)]
  | cons c rest ih =>
    intro s hpos hs
    simp only [List.map_cons, List.sum_cons] at hs
    have hc : c ≠ 0 := hpos c (List.mem_cons_self _ _)
    have hw : wrapInt32 ((s : Int) + (ceilLog2 c : Int)) = ((s + ceilLog2 c : Nat) : Int) := by
      rw [wrapInt32_of_small _ (by omega) (by omega)]
      push_cast; rfl
    have hlt : ((s + ceilLog2 c : Nat) : Int) < 64 := by omega
    simp only [makeLevelOffsetsFrom, bitsFor_of_pos zero_bits hc, hw, if_pos hlt]
    rw [ih (s + ceilLog2 c) (fun d hd => hpos d (List.mem_cons_of_mem _ hd)) (by omega)]
    simp only [Option.map_some', Option.some.injEq, List.length_cons]
    rw [List.range_succ_eq_map (rest.length + 1), List.map_cons, List.map_map]
    simp only [List.take_zero, List.map_nil, List.sum_nil, Nat.add_zero,
      toSizeT_natCast s (by omega)]
    refine congrArg (List.cons s) ?_
    apply List.map_congr_left
    intro i _
    simp only [Function.comp, List.take_succ_cons, List.map_cons, List.sum_cons]
    omega

theorem makeLevelOffsets_eq_spec (zero_bits : Nat) (counts : List Nat)
    (hpos : ∀ c ∈ counts, c ≠ 0) (hsum : (counts.map ceilLog2).sum < 64) :
    makeLevelOffsets zero_bits counts = some (specLevelOffsets counts) := by
  have h := makeLevelOffsetsFrom_eq zero_bits counts 0 hpos (by omega)
  simp only [Nat.zero_add, Nat.cast_zero] at h
  exact h

theorem specLevelOffsets_getD (counts : List Nat) (i : Nat) (hi : i ≤ counts.length) :
    (specLevelOffsets counts).getD i 0 = ((counts.take i).map ceilLog2).sum := by
  have hlt : i < (specLevelOffsets counts).length := by
    simp [specLevelOffsets]; omega
  rw [List.getD_eq_getElem _ _ hlt]
  simp [specLevelOffsets]

theorem specLevelOffsets_length (counts : List Nat) :
    (specLevelOffsets counts).length = counts.length + 1 := by
  simp [specLevelOffsets]

theorem specLevelOffsets_step (counts : List Nat) (i : Nat) (hi : i < counts.length) :
    (specLevelOffsets counts).getD (i + 1) 0
      = (specLevelOffsets counts).getD i 0 + ceilLog2 (counts.getD i 0) := by
  rw [specLevelOffsets_getD _ _ (by omega), specLevelOffsets_getD _ _ (by omega)]
  rw [List.take_succ, List.map_append, List.sum_append]
  simp [List.getElem?_eq_getElem hi, List.getD_eq_getElem _ _ hi]

theorem specLevelOffsets_le_total (counts : List Nat) (i : Nat) :
    (specLevelOffsets counts).getD i 0 ≤ (counts.map ceilLog2).sum := by
  rcases Nat.lt_or_ge counts.length i with h | h
  · have : (specLevelOffsets counts).length ≤ i := by
      rw [specLevelOffsets_length]; omega
    rw [List.getD_eq_default _ _ this]
    exact Nat.zero_le _
  · rw [specLevelOffsets_getD _ _ h]
    conv_rhs => rw [← List.take_append_drop i counts, List.map_append, List.sum_append]
    exact Nat.le_add_right _ _

theorem makeLevelOffsets_valid (zero_bits : Nat) (counts offsets : List Nat)
    (hcounts : ∀ c ∈ counts, 1 ≤ c ∧ c < 2 ^ 64)
    (h : makeLevelOffsets zero_bits counts = some offsets) :
    (counts.map ceilLog2).sum < 64 ∧ offsets = specLevelOffsets counts := by
  have hsum : (counts.map ceilLog2).sum < 64 := by
    by_contra hge
    have hnone := makeLevelOffsetsFrom_over_budget zero_bits counts 0 (le_refl _)
      (by norm_num) hcounts (by rw [clog_two_eq_ceilLog2]; omega)
    simp only [makeLevelOffsets] at h
    rw [hnone] at h
    exact Option.noConfusion h
  refine ⟨hsum, ?_⟩
  have hne : ∀ c ∈ counts, c ≠ 0 := fun c hc => by
    have := (hcounts c hc).1; omega
  rw [makeLevelOffsets_eq_spec zero_bits counts hne hsum] at h
  exact (Option.some.inj h).symm

theorem for_each_pair_getD {α β : Type} (f : α → α → Option β) (d : α) (e : β) :
    ∀ (xs : List α) (ms : List β), for_each_pair f xs = some ms →
      ∀ i, i + 1 < xs.length → f (xs.getD i d) (xs.getD (i + 1) d) = some (ms.getD i e) := by
  intro xs
  induction xs with
  | nil => intro ms _ i hi; simp at hi
  | cons a rest ih =>
    intro ms h i hi
    cases rest with
    | nil => simp at hi
    | cons b rest2 =>
      simp only [for_each_pair] at h
      rcases hf : f a b with _ | m
      · rw [hf] at h; simp at h
      · rw [hf] at h
        rcases hr : for_each_pair f (b :: rest2) with _ | tl
        · rw [hr] at h; simp at h
        · rw [hr] at h
          simp only [Option.map_some', Option.some.injEq] at h
          subst h
          cases i with
          | zero => simpa using hf
          | succ j =>
            have := ih tl hr j (by simp at hi ⊢; omega)
            simpa using this

theorem for_each_pair_isSome {α β : Type} (f : α → α → Option β) :
    ∀ (xs : List α), (∀ a ∈ xs, ∀ b ∈ xs, (f a b).isSome = true) →
      ∃ ms, for_each_pair f xs = some ms := by
  intro xs
  induction xs with
  | nil => intro _; exact ⟨[], rfl⟩
  | cons a rest ih =>
    intro h
    cases rest with
    | nil => exact ⟨[], rfl⟩
    | cons b rest2 =>
      obtain ⟨tl, htl⟩ := ih (fun x hx y hy =>
        h x (List.mem_cons_of_mem _ hx) y (List.mem_cons_of_mem _ hy))
      have hab := h a (List.mem_cons_self _ _) b (List.mem_cons_of_mem _ (List.mem_cons_self _ _))
      obtain ⟨m, hm⟩ := Option.isSome_iff_exists.mp hab
      exact ⟨m :: tl, by simp [for_each_pair, hm, htl]⟩

theorem levelMask_eq (offset next_offset : Nat) (h1 : offset < 64) (h2 : next_offset < 64) :
    levelMask offset next_offset = some ((2 ^ next_offset - 1) ^^^ (2 ^ offset - 1)) := by
  simp [levelMask, NUM_PARTITION_BITS, h1, h2, Nat.one_shiftLeft]

theorem levelMask_testBit (offset next_offset b : Nat) (h : offset ≤ next_offset) :
    ((2 ^ next_offset - 1) ^^^ (2 ^ offset - 1)).testBit b = true
      ↔ offset ≤ b ∧ b < next_offset := by
  rw [Nat.testBit_xor, Nat.testBit_two_pow_sub_one, Nat.testBit_two_pow_sub_one]
  by_cases h1 : b < next_offset <;> by_cases h2 : b < offset <;> simp [h1, h2] <;> omega

theorem specLevelOffsets_mem_lt (counts : List Nat) (hsum : (counts.map ceilLog2).sum < 64) :
    ∀ a ∈ specLevelOffsets counts, a < 64 := by
  intro a ha
  obtain ⟨i, hi, rfl⟩ := List.getElem_of_mem ha
  have := specLevelOffsets_le_total counts i
  rw [List.getD_eq_getElem _ _ hi] at this
  omega

theorem makeLevelMasks_spec (counts : List Nat) (hsum : (counts.map ceilLog2).sum < 64) :
    ∃ masks, makeLevelMasks (specLevelOffsets counts) = some masks ∧
      masks.length = counts.length ∧
      ∀ i, i < counts.length →
        masks.getD i 0 = (2 ^ (specLevelOffsets counts).getD (i + 1) 0 - 1)
          ^^^ (2 ^ (specLevelOffsets counts).getD i 0 - 1) := by
  have hlt := specLevelOffsets_mem_lt counts hsum
  obtain ⟨masks, hm⟩ := for_each_pair_isSome levelMask (specLevelOffsets counts)
    (fun a ha b hb => by rw [levelMask_eq a b (hlt a ha) (hlt b hb)]; rfl)
  refine ⟨masks, hm, ?_, ?_⟩
  · rw [for_each_pair_length levelMask _ _ hm, specLevelOffsets_length]; rfl
  · intro i hi
    have h := for_each_pair_getD levelMask 0 0 _ _ hm i (by rw [specLevelOffsets_length]; omega)
    have l1 : (specLevelOffsets counts).getD i 0 < 64 := by
      have := specLevelOffsets_le_total counts i; omega
    have l2 : (specLevelOffsets counts).getD (i + 1) 0 < 64 := by
      have := specLevelOffsets_le_total counts (i + 1); omega
    rw [levelMask_eq _ _ l1 l2] at h
    exact (Option.some.inj h).symm

/-- C13: for the offsets that `makeLevelOffsets` produces from counts that are at least 1,
`makeLevelMasks` returns one mask per level, and bit `b` of the mask of level index `i` is
set exactly when `level_offsets[i] <= b < level_offsets[i+1]` (all offsets are below 64). -/
theorem makeLevelMasks_isolate_field (zero_bits : Nat) (level_to_num_cells offsets : List Nat)
    (hcounts : ∀ c ∈ level_to_num_cells, 1 ≤ c ∧ c < 2 ^ 64)
    (h : makeLevelOffsets zero_bits level_to_num_cells = some offsets) :
    (∀ a ∈ offsets, a < 64) ∧
    ∃ masks, makeLevelMasks offsets = some masks ∧
      masks.length = level_to_num_cells.length ∧
      ∀ i, i < level_to_num_cells.length → ∀ b, b < 64 →
        ((masks.getD i 0).testBit b = true
          ↔ offsets.getD i 0 ≤ b ∧ b < offsets.getD (i + 1) 0) := by
  obtain ⟨hsum, rfl⟩ := makeLevelOffsets_valid zero_bits level_to_num_cells offsets hcounts h
  obtain ⟨masks, hm, hlen, hval⟩ := makeLevelMasks_spec level_to_num_cells hsum
  refine ⟨specLevelOffsets_mem_lt _ hsum, masks, hm, hlen, ?_⟩
  intro i hi b _
  rw [hval i hi]
  apply levelMask_testBit
  rw [specLevelOffsets_step _ i hi]
  exact Nat.le_add_right _ _

theorem makeLevelMasks_isolate_field_witness :
    (∀ c ∈ [4, 1, 3], 1 ≤ c ∧ c < 2 ^ 64) ∧ makeLevelOffsets 0 [4, 1, 3] = some [0, 2, 2, 4] ∧
    (∀ a ∈ [0, 2, 2, 4], a < 64) ∧
    ∃ masks, makeLevelMasks [0, 2, 2, 4] = some masks ∧
      masks.length = [4, 1, 3].length ∧
      ∀ i, i < [4, 1, 3].length → ∀ b, b < 64 →
        ((masks.getD i 0).testBit b = true
          ↔ [0, 2, 2, 4].getD i 0 ≤ b ∧ b < [0, 2, 2, 4].getD (i + 1) 0) :=
  ⟨by decide, by decide,
    makeLevelMasks_isolate_field 0 [4, 1, 3] [0, 2, 2, 4] (by decide) (by decide)⟩

theorem markBits_getD (arr : List Nat) (off l idx : Nat) (h : idx < 64) :
    (markBits arr off l).getD idx 0 = if off ≤ idx then l else arr.getD idx 0 := by
  simp [markBits, NUM_PARTITION_BITS, List.getD_eq_getElem?_getD, List.getElem?_range, h]

theorem makeBitToLevelFrom_above (idx : Nat) (h : idx < 64) :
    ∀ (post : List Nat) (l : Nat) (arr : List Nat), (∀ a ∈ post, idx < a) →
      (makeBitToLevelFrom post l arr).getD idx 0 = arr.getD idx 0 := by
  intro post
  induction post with
  | nil => intro l arr _; rfl
  | cons a rest ih =>
    intro l arr hpost
    simp only [makeBitToLevelFrom]
    rw [ih _ _ (fun x hx => hpost x (List.mem_cons_of_mem _ hx)), markBits_getD _ _ _ _ h]
    have := hpost a (List.mem_cons_self _ _)
    rw [if_neg (by omega)]

theorem makeBitToLevelFrom_below (idx : Nat) (h : idx < 64) (post : List Nat)
    (hpost : ∀ a ∈ post, idx < a) :
    ∀ (pre : List Nat) (l : Nat) (arr : List Nat), l < 256 → (∀ a ∈ pre, a ≤ idx) →
      pre ≠ [] →
      (makeBitToLevelFrom (pre ++ post) l arr).getD idx 0 = (l + pre.length - 1) % 256 := by
  intro pre
  induction pre with
  | nil => intro l arr _ _ hne; exact absurd rfl hne
  | cons a rest ih =>
    intro l arr hl hpre _
    have ha := hpre a (List.mem_cons_self _ _)
    have hl2 : (l + 1) % LEVEL_WORD < 256 := Nat.mod_lt _ (by norm_num [LEVEL_WORD])
    cases rest with
    | nil =>
      show (makeBitToLevelFrom post ((l + 1) % LEVEL_WORD) (markBits arr a l)).getD idx 0 = _
      rw [makeBitToLevelFrom_above idx h post _ _ hpost, markBits_getD _ _ _ _ h, if_pos ha]
      simp only [List.length_cons, List.length_nil]
      omega
    | cons c rest2 =>
      show (makeBitToLevelFrom ((c :: rest2) ++ post) ((l + 1) % LEVEL_WORD)
        (markBits arr a l)).getD idx 0 = _
      rw [ih _ _ hl2 (fun x hx => hpre x (List.mem_cons_of_mem _ hx)) (List.cons_ne_nil _ _)]
      simp only [List.length_cons, LEVEL_WORD]
      omega

theorem specLevelOffsets_mono (counts : List Nat) (i : Nat) :
    ∀ d, i + d ≤ counts.length →
      (specLevelOffsets counts).getD i 0 ≤ (specLevelOffsets counts).getD (i + d) 0 := by
  intro d
  induction d with
  | zero => intro _; exact Nat.le_refl _
  | succ d ih =>
    intro h
    have := ih (by omega)
    rw [← Nat.add_assoc, specLevelOffsets_step counts (i + d) (by omega)]
    omega

/-- What `makeBitToLevel` holds for a bit of a field: with counts of at least 1 and fewer
than 64 bits in total, every bit `b` inside the field of level `l`
(`level_offsets[l-1] <= b < level_offsets[l]`, the field that `GetCell(l, _)` decodes) has
`bit_to_level[b] = l - 1`, as a `LevelID`. -/
theorem bit_to_level_of_field (counts : List Nat) (hsum : (counts.map ceilLog2).sum < 64)
    (l b : Nat) (hl1 : 1 ≤ l) (hl2 : l ≤ counts.length)
    (hb1 : (specLevelOffsets counts).getD (l - 1) 0 ≤ b)
    (hb2 : b < (specLevelOffsets counts).getD l 0) :
    (makeBitToLevel (specLevelOffsets counts)).getD b 0 = (l - 1) % 256 := by
  have hlen := specLevelOffsets_length counts
  have hb : b < 64 := by
    have := specLevelOffsets_le_total counts l; omega
  have hsplit : specLevelOffsets counts
      = (specLevelOffsets counts).take l ++ (specLevelOffsets counts).drop l :=
    (List.take_append_drop l _).symm
  have hpre : ∀ a ∈ (specLevelOffsets counts).take l, a ≤ b := by
    intro a ha
    obtain ⟨i, hi, rfl⟩ := List.getElem_of_mem ha
    have hi2 : i < l := by
      simp only [List.length_take] at hi; omega
    rw [List.getElem_take]
    have hmono := specLevelOffsets_mono counts i (l - 1 - i) (by omega)
    have e : i + (l - 1 - i) = l - 1 := by omega
    rw [e, List.getD_eq_getElem _ _ (by omega)] at hmono
    omega
  have hpost : ∀ a ∈ (specLevelOffsets counts).drop l, b < a := by
    intro a ha
    obtain ⟨i, hi, rfl⟩ := List.getElem_of_mem ha
    have hi2 : l + i < counts.length + 1 := by
      simp only [List.length_drop] at hi; omega
    rw [List.getElem_drop]
    have hmono := specLevelOffsets_mono counts l i (by omega)
    rw [List.getD_eq_getElem _ _ (by omega : l + i < (specLevelOffsets counts).length)] at hmono
    omega
  have hne : (specLevelOffsets counts).take l ≠ [] := by
    intro hnil
    have := congrArg List.length hnil
    simp only [List.length_take, List.length_nil] at this
    omega
  unfold makeBitToLevel
  rw [hsplit, makeBitToLevelFrom_below b hb _ hpost _ 0 _ (by norm_num) hpre hne]
  simp only [List.length_take]
  have : min l (specLevelOffsets counts).length = l := by omega
  rw [this]
  congr 1
  omega

theorem bit_to_level_of_field_check :
    (makeBitToLevel (specLevelOffsets [4, 3])).getD 2 0 = (2 - 1) % 256 :=
  bit_to_level_of_field [4, 3] (by decide) 2 2 (by decide) (by decide) (by decide) (by decide)

namespace PackedMultiLevelPartition

/-- C14: `bit_to_level` does not map a bit to the level that `GetCell` accepts for its
field.  In the geometry of the worked example bit 2 lies in the field of level 2
(`level_offsets[1] = 2 <= 2 < 4 = level_offsets[2]`, the field decoded by `GetCell(2, _)`,
mask 12), and bit 0 in the field of level 1, while `bit_to_level[2] = 1` and
`bit_to_level[0] = 0`. -/
theorem bit_to_level_off_by_one_on_worked_example (zero_bits junk : Nat) :
    ∃ p, construct zero_bits junk workedPartitions workedNumCells = some p ∧
      LevelIDToIndex 2 = 1 ∧ p.level_masks.getD (LevelIDToIndex 2) 0 = 12 ∧
      p.level_offsets.getD (2 - 1) 0 ≤ 2 ∧ 2 < p.level_offsets.getD 2 0 ∧
      p.bit_to_level.getD 2 0 = 1 ∧
      p.level_offsets.getD (1 - 1) 0 ≤ 0 ∧ 0 < p.level_offsets.getD 1 0 ∧
      p.bit_to_level.getD 0 0 = 0 :=
  ⟨_, construct_worked zero_bits junk, by decide!, by decide!, by decide!, by decide!,
    by decide!, by decide!, by decide!, by decide!⟩

end PackedMultiLevelPartition

theorem orderedInsert_pairwise_key (k : Nat → Nat) (S : Nat → Nat → Prop)
    (r : Nat → Nat → Prop) [DecidableRel r] (hr : ∀ x y, r x y ↔ ¬ k y < k x) (a : Nat) :
    ∀ m : List Nat, m.Pairwise (fun x y => k x < k y ∨ (k x = k y ∧ S x y)) →
      (∀ x ∈ m, S a x) →
      (m.orderedInsert r a).Pairwise (fun x y => k x < k y ∨ (k x = k y ∧ S x y)) := by
  intro m
  induction m with
  | nil => intro _ _; simp
  | cons b rest ih =>
    intro hm hS
    rw [List.pairwise_cons] at hm
    rw [List.orderedInsert]
    split
    · rename_i hab
      have hkab : k a ≤ k b := Nat.le_of_not_lt ((hr a b).mp hab)
      refine List.pairwise_cons.mpr ⟨?_, List.pairwise_cons.mpr hm⟩
      intro x hx
      have hSx := hS x hx
      rcases List.mem_cons.mp hx with rfl | hx2
      · rcases Nat.lt_or_ge (k a) (k x) with h | h
        · exact Or.inl h
        · exact Or.inr ⟨by omega, hSx⟩
      · have hbx : k b ≤ k x := by
          rcases hm.1 x hx2 with h | h
          · omega
          · omega
        rcases Nat.lt_or_ge (k a) (k x) with h | h
        · exact Or.inl h
        · exact Or.inr ⟨by omega, hSx⟩
    · rename_i hab
      have hkba : k b < k a := by
        by_contra hcon
        exact hab ((hr a b).mpr hcon)
      refine List.pairwise_cons.mpr ⟨?_, ih hm.2 (fun x hx => hS x (List.mem_cons_of_mem _ hx))⟩
      intro x hx
      rcases (List.mem_orderedInsert r).mp hx with rfl | hx2
      · exact Or.inl hkba
      · exact hm.1 x hx2

theorem insertionSort_pairwise_key (k : Nat → Nat) (S : Nat → Nat → Prop)
    (r : Nat → Nat → Prop) [DecidableRel r] (hr : ∀ x y, r x y ↔ ¬ k y < k x) :
    ∀ l : List Nat, l.Pairwise S →
      (l.insertionSort r).Pairwise (fun x y => k x < k y ∨ (k x = k y ∧ S x y)) := by
  intro l
  induction l with
  | nil => intro _; simp
  | cons a rest ih =>
    intro hl
    rw [List.pairwise_cons] at hl
    rw [List.insertionSort]
    apply orderedInsert_pairwise_key k S r hr a _ (ih hl.2)
    intro x hx
    exact hl.1 x ((List.perm_insertionSort r rest).mem_iff.mp hx)

namespace PackedMultiLevelPartition

theorem sortPermutation_append (partitions : List (List Nat)) (p : List Nat)
    (perm : List Nat) :
    sortPermutation (partitions ++ [p]) perm = stableSortBy p (sortPermutation partitions perm) := by
  simp [sortPermutation, List.foldl_append]

theorem sortKey_append (partitions : List (List Nat)) (p : List Nat) (v : Nat) :
    sortKey (partitions ++ [p]) v = p.getD v 0 :: sortKey partitions v := by
  simp [sortKey]

theorem sortPermutation_pairwise (n : Nat) (partitions : List (List Nat)) :
    (sortPermutation partitions (List.range n)).Pairwise
      (fun a b => List.Lex (· < ·) (sortKey partitions a) (sortKey partitions b)) := by
  induction partitions using List.reverseRecOn with
  | nil =>
    simp only [sortPermutation, List.foldl_nil, sortKey, List.reverse_nil, List.map_nil,
      List.nil_append]
    exact (List.pairwise_lt_range n).imp (fun h => List.Lex.rel h)
  | append_singleton rest p ih =>
    rw [sortPermutation_append]
    have h := insertionSort_pairwise_key (fun v => p.getD v 0)
      (fun a b => List.Lex (· < ·) (sortKey rest a) (sortKey rest b))
      (fun lhs rhs => ¬ (p.getD rhs 0 < p.getD lhs 0)) (fun _ _ => Iff.rfl) _ ih
    refine h.imp ?_
    intro a b hab
    rw [sortKey_append, sortKey_append]
    rcases hab with hlt | ⟨heq, hlex⟩
    · exact List.Lex.rel hlt
    · have heq2 : p.getD a 0 = p.getD b 0 := heq
      rw [heq2]; exact List.Lex.cons hlex

/-- C16: after the stable sorts of `initializePartitionIDs`, one per level from the finest
on, the permutation is a permutation of `0..n-1` in which every node comes before every
later one in the lexicographic order of the key (raw id at level L, ..., raw id at level
1, node id).  For the worked example the order is 2 4 3 5 1 0. -/
theorem sortPermutation_sorted (partitions : List (List Nat)) (n : Nat) :
    (sortPermutation partitions (List.range n)).Perm (List.range n) ∧
    (sortPermutation partitions (List.range n)).Pairwise
      (fun a b => List.Lex (· < ·) (sortKey partitions a) (sortKey partitions b)) ∧
    sortPermutation workedPartitions (List.range 6) = [2, 4, 3, 5, 1, 0] :=
  ⟨sortPermutation_perm partitions (List.range n), sortPermutation_pairwise n partitions,
    by decide⟩

end PackedMultiLevelPartition

theorem field_testBit (off next j : Nat) (h : off ≤ next) :
    ((2 ^ next - 1) ^^^ (2 ^ off - 1)).testBit j = (decide (off ≤ j) && decide (j < next)) := by
  rw [Nat.testBit_xor, Nat.testBit_two_pow_sub_one, Nat.testBit_two_pow_sub_one]
  by_cases h1 : j < next <;> by_cases h2 : j < off <;> simp [h1, h2] <;> omega

theorem stored_testBit (old mask c off j : Nat) (hj : j < 64) :
    ((old &&& (mask ^^^ (2 ^ 64 - 1))) ||| ((c <<< off) % 2 ^ 64)).testBit j
      = ((old.testBit j && !mask.testBit j) || (decide (off ≤ j) && c.testBit (j - off))) := by
  rw [Nat.testBit_or, Nat.testBit_and, Nat.testBit_xor, Nat.testBit_two_pow_sub_one,
    Nat.testBit_mod_two_pow, Nat.testBit_shiftLeft]
  simp [hj]

theorem stored_read_back (old c off next : Nat) (h : off ≤ next) (hn : next < 64)
    (hc : c < 2 ^ (next - off)) :
    ((((old &&& (((2 ^ next - 1) ^^^ (2 ^ off - 1)) ^^^ (2 ^ 64 - 1))) |||
        ((c <<< off) % 2 ^ 64)) &&& ((2 ^ next - 1) ^^^ (2 ^ off - 1))) >>> off) = c := by
  apply Nat.eq_of_testBit_eq
  intro i
  rw [Nat.testBit_shiftRight, Nat.testBit_and, field_testBit off next (off + i) h]
  by_cases hi : i < next - off
  · rw [stored_testBit _ _ _ _ _ (by omega), field_testBit off next (off + i) h]
    have e : off + i - off = i := by omega
    have h1 : off ≤ off + i := by omega
    have h2 : off + i < next := by omega
    simp [e, h1, h2]
  · have hc2 : c.testBit i = false := by
      apply Nat.testBit_lt_two_pow
      exact lt_of_lt_of_le hc (Nat.pow_le_pow_right (by norm_num) (by omega))
    have h2 : ¬ off + i < next := by omega
    simp [hc2, h2]

theorem stored_other_field (old c off next off2 next2 : Nat) (h : off ≤ next)
    (h2 : off2 ≤ next2) (hn2 : next2 < 64) (hdis : next2 ≤ off ∨ next ≤ off2)
    (hc : c < 2 ^ (next - off)) :
    (((old &&& (((2 ^ next - 1) ^^^ (2 ^ off - 1)) ^^^ (2 ^ 64 - 1))) |||
        ((c <<< off) % 2 ^ 64)) &&& ((2 ^ next2 - 1) ^^^ (2 ^ off2 - 1)))
      = old &&& ((2 ^ next2 - 1) ^^^ (2 ^ off2 - 1)) := by
  apply Nat.eq_of_testBit_eq
  intro j
  rw [Nat.testBit_and, Nat.testBit_and, field_testBit off2 next2 j h2]
  by_cases hj : off2 ≤ j ∧ j < next2
  · rw [stored_testBit _ _ _ _ _ (by omega), field_testBit off next j h]
    have hout : ¬ (off ≤ j ∧ j < next) := by omega
    by_cases hlo : off ≤ j
    · have hc2 : c.testBit (j - off) = false := by
        apply Nat.testBit_lt_two_pow
        exact lt_of_lt_of_le hc (Nat.pow_le_pow_right (by norm_num) (by omega))
      have : ¬ j < next := by omega
      simp [hlo, hc2, this]
    · simp [hlo]
  · have : (decide (off2 ≤ j) && decide (j < next2)) = false := by
      simpa using hj
    rw [this]; simp

namespace PackedMultiLevelPartition

theorem geometry_facts (zero_bits : Nat) (counts : List Nat) (self : PackedMultiLevelPartition)
    (hcounts : ∀ c ∈ counts, 1 ≤ c ∧ c < 2 ^ 64)
    (hoff : makeLevelOffsets zero_bits counts = some self.level_offsets)
    (hmask : makeLevelMasks self.level_offsets = some self.level_masks) :
    (counts.map ceilLog2).sum < 64 ∧ self.level_offsets = specLevelOffsets counts ∧
    self.level_masks.length = counts.length ∧
    ∀ i, i < counts.length →
      self.level_masks.getD i 0 = (2 ^ (specLevelOffsets counts).getD (i + 1) 0 - 1)
        ^^^ (2 ^ (specLevelOffsets counts).getD i 0 - 1) := by
  obtain ⟨hsum, he⟩ := makeLevelOffsets_valid zero_bits counts _ hcounts hoff
  obtain ⟨masks, hm, hlen, hval⟩ := makeLevelMasks_spec counts hsum
  rw [he, hm] at hmask
  have hmm : masks = self.level_masks := Option.some.inj hmask
  subst hmm
  exact ⟨hsum, he, hlen, hval⟩

theorem SetCellID_stored (junk : Nat) (self : PackedMultiLevelPartition) (l node c : Nat)
    (hoff : LevelIDToIndex l < self.level_offsets.length)
    (hm : LevelIDToIndex l < self.level_masks.length)
    (hnode : node < self.partition.length) :
    (SetCellID junk self l node c).partition.getD node 0
      = (self.partition.getD node 0 &&& (self.level_masks.getD (LevelIDToIndex l) 0 ^^^ (WORD - 1)))
        ||| ((c <<< self.level_offsets.getD (LevelIDToIndex l) 0) % WORD) := by
  rw [SetCellID_junk junk self l node c hoff hnode (Or.inl hm)]
  simp only [SetCellID, List.getD_eq_getElem?_getD]
  rw [List.getElem?_set_self hnode]
  rfl

/-- C17, as stated, fails where a field is wider than a `CellID`: with one level of
`2 ^ 33` cells (offsets 0 and 33, so `bits(1) = 33`) and the cell id `2 ^ 32`,
which is below `2 ^ 33`, `GetCell` returns 0 after `SetCellID`, because its result is a
32-bit `CellID`. -/
theorem SetCellID_GetCell_wide_field :
    makeLevelOffsets 0 [2 ^ 33] = some [0, 33] ∧
    makeLevelMasks [0, 33] = some [2 ^ 33 - 1] ∧
    (2 : Nat) ^ 32 < 2 ^ (33 - 0) ∧
    (SetCellID 0 ⟨[0, 0], [0, 33], [2 ^ 33 - 1], makeBitToLevel [0, 33]⟩ 1 0 (2 ^ 32)).GetCell 1 0
      = 0 := by
  refine ⟨by decide, by decide, by decide, by decide!⟩

/-- C17, amended: in a valid geometry, for a level `l` in `1..L`, a node in range, any
prior packed values, and a cell id below `2 ^ bits(l)` that is also a `CellID` (below
`2 ^ 32`), `GetCell(l, node)` returns the cell id after `SetCellID(l, node, cell_id)`. -/
theorem SetCellID_GetCell_round_trip (zero_bits junk : Nat) (level_to_num_cells : List Nat)
    (self : PackedMultiLevelPartition) (l node cell_id : Nat)
    (hcounts : ∀ c ∈ level_to_num_cells, 1 ≤ c ∧ c < 2 ^ 64)
    (hoff : makeLevelOffsets zero_bits level_to_num_cells = some self.level_offsets)
    (hmask : makeLevelMasks self.level_offsets = some self.level_masks)
    (hl1 : 1 ≤ l) (hl2 : l ≤ level_to_num_cells.length)
    (hnode : node < self.partition.length)
    (hcell : cell_id < 2 ^ ceilLog2 (level_to_num_cells.getD (l - 1) 0))
    (hid : cell_id < 2 ^ 32) :
    (SetCellID junk self l node cell_id).GetCell l node = cell_id := by
  obtain ⟨hsum, he, hmlen, hval⟩ := geometry_facts zero_bits level_to_num_cells self hcounts hoff hmask
  have hidx : LevelIDToIndex l = l - 1 := by
    simp [LevelIDToIndex]; omega
  have holen : self.level_offsets.length = level_to_num_cells.length + 1 := by
    rw [he, specLevelOffsets_length]
  obtain ⟨t1, t2, _, _⟩ := SetCellID_tables junk self l node cell_id
  have hstep := specLevelOffsets_step level_to_num_cells (l - 1) (by omega)
  have e1 : l - 1 + 1 = l := by omega
  rw [e1] at hstep
  unfold GetCell
  simp only [t1, t2]
  rw [SetCellID_stored junk self l node cell_id (by rw [hidx]; omega) (by rw [hidx]; omega) hnode]
  simp only [hidx, hval (l - 1) (by omega), e1, he, WORD, CELL_WORD]
  rw [stored_read_back _ _ _ _ (by omega)
    (by have := specLevelOffsets_le_total level_to_num_cells l; omega)
    (by rw [hstep, Nat.add_sub_cancel_left]; exact hcell)]
  exact Nat.mod_eq_of_lt hid

theorem SetCellID_GetCell_round_trip_witness :
    (∀ c ∈ [4, 3], 1 ≤ c ∧ c < 2 ^ 64) ∧
    makeLevelOffsets 0 [4, 3] = some [0, 2, 4] ∧ makeLevelMasks [0, 2, 4] = some [3, 12] ∧
    (SetCellID 0 ⟨[80, 60, 0], [0, 2, 4], [3, 12], makeBitToLevel [0, 2, 4]⟩ 2 1 2).GetCell 2 1
      = 2 :=
  ⟨by decide, by decide, by decide,
    SetCellID_GetCell_round_trip 0 0 [4, 3] ⟨[80, 60, 0], [0, 2, 4], [3, 12],
      makeBitToLevel [0, 2, 4]⟩ 2 1 2 (by decide) (by decide) (by decide) (by decide)
      (by decide) (by decide) (by decide) (by decide)⟩

/-- C18: in a valid geometry, for a level `l` in `1..L`, a node in range and a cell id
below `2 ^ bits(l)`, `SetCellID(l, node, cell_id)` leaves `GetCell(l2, node)` unchanged for
every other level `l2`, and leaves the packed value of every other node unchanged. -/
theorem SetCellID_frame (zero_bits junk : Nat) (level_to_num_cells : List Nat)
    (self : PackedMultiLevelPartition) (l node cell_id : Nat)
    (hcounts : ∀ c ∈ level_to_num_cells, 1 ≤ c ∧ c < 2 ^ 64)
    (hoff : makeLevelOffsets zero_bits level_to_num_cells = some self.level_offsets)
    (hmask : makeLevelMasks self.level_offsets = some self.level_masks)
    (hl1 : 1 ≤ l) (hl2 : l ≤ level_to_num_cells.length)
    (hnode : node < self.partition.length)
    (hcell : cell_id < 2 ^ ceilLog2 (level_to_num_cells.getD (l - 1) 0)) :
    (∀ l2, 1 ≤ l2 → l2 ≠ l →
      (SetCellID junk self l node cell_id).GetCell l2 node = self.GetCell l2 node) ∧
    (∀ v, v ≠ node →
      (SetCellID junk self l node cell_id).partition.getD v 0 = self.partition.getD v 0) := by
  obtain ⟨hsum, he, hmlen, hval⟩ := geometry_facts zero_bits level_to_num_cells self hcounts hoff hmask
  refine ⟨?_, fun v hv => SetCellID_other junk self l node cell_id v 0 hv⟩
  intro l2 h1 hne
  have hidx : LevelIDToIndex l = l - 1 := by
    simp [LevelIDToIndex]; omega
  have hidx2 : LevelIDToIndex l2 = l2 - 1 := by
    simp [LevelIDToIndex]; omega
  have holen : self.level_offsets.length = level_to_num_cells.length + 1 := by
    rw [he, specLevelOffsets_length]
  obtain ⟨t1, t2, _, _⟩ := SetCellID_tables junk self l node cell_id
  unfold GetCell
  simp only [t1, t2, hidx2]
  rcases Nat.lt_or_ge level_to_num_cells.length l2 with hbig | hsmall
  · have : self.level_masks.getD (l2 - 1) 0 = 0 :=
      List.getD_eq_default _ _ (by omega)
    simp only [this, Nat.and_zero]
  · have hstep := specLevelOffsets_step level_to_num_cells (l - 1) (by omega)
    have hstep2 := specLevelOffsets_step level_to_num_cells (l2 - 1) (by omega)
    have e1 : l - 1 + 1 = l := by omega
    have e2 : l2 - 1 + 1 = l2 := by omega
    rw [e1] at hstep
    rw [e2] at hstep2
    rw [SetCellID_stored junk self l node cell_id (by rw [hidx]; omega) (by rw [hidx]; omega)
      hnode]
    simp only [hidx, hval (l - 1) (by omega), hval (l2 - 1) (by omega), e1, e2, he, WORD]
    have hdis : (specLevelOffsets level_to_num_cells).getD l2 0
          ≤ (specLevelOffsets level_to_num_cells).getD (l - 1) 0 ∨
        (specLevelOffsets level_to_num_cells).getD l 0
          ≤ (specLevelOffsets level_to_num_cells).getD (l2 - 1) 0 := by
      rcases Nat.lt_or_ge l2 l with hlt | hge
      · left
        have := specLevelOffsets_mono level_to_num_cells l2 (l - 1 - l2) (by omega)
        have e : l2 + (l - 1 - l2) = l - 1 := by omega
        rwa [e] at this
      · right
        have := specLevelOffsets_mono level_to_num_cells l (l2 - 1 - l) (by omega)
        have e : l + (l2 - 1 - l) = l2 - 1 := by omega
        rwa [e] at this
    rw [stored_other_field _ _ _ _ _ _ (by omega) (by omega)
      (by have := specLevelOffsets_le_total level_to_num_cells l2; omega) hdis
      (by rw [hstep, Nat.add_sub_cancel_left]; exact hcell)]

theorem SetCellID_frame_witness :
    (∀ c ∈ [4, 3], 1 ≤ c ∧ c < 2 ^ 64) ∧
    makeLevelOffsets 0 [4, 3] = some [0, 2, 4] ∧ makeLevelMasks [0, 2, 4] = some [3, 12] ∧
    (∀ l2, 1 ≤ l2 → l2 ≠ 2 →
      (SetCellID 0 ⟨[13, 7, 0], [0, 2, 4], [3, 12], makeBitToLevel [0, 2, 4]⟩ 2 1 2).GetCell l2 1
        = (PackedMultiLevelPartition.mk [13, 7, 0] [0, 2, 4] [3, 12]
            (makeBitToLevel [0, 2, 4])).GetCell l2 1) ∧
    (∀ v, v ≠ 1 →
      (SetCellID 0 ⟨[13, 7, 0], [0, 2, 4], [3, 12], makeBitToLevel [0, 2, 4]⟩ 2 1
          2).partition.getD v 0
        = (PackedMultiLevelPartition.mk [13, 7, 0] [0, 2, 4] [3, 12]
            (makeBitToLevel [0, 2, 4])).partition.getD v 0) :=
  ⟨by decide, by decide, by decide,
    SetCellID_frame 0 0 [4, 3] ⟨[13, 7, 0], [0, 2, 4], [3, 12],
      makeBitToLevel [0, 2, 4]⟩ 2 1 2 (by decide) (by decide) (by decide) (by decide)
      (by decide) (by decide) (by decide)⟩

end PackedMultiLevelPartition

namespace PackedMultiLevelPartition

theorem assignLevels_eq_foldl (junk front : Nat) (tl : List Nat) :
    ∀ (levels : List (List Nat)) (level : Nat) (self : PackedMultiLevelPartition),
      assignLevels junk (front :: tl) levels level self
        = some ((levels.zip (assignedLevels levels level)).foldl
            (fun st x => assignCells junk x.1 x.2 (x.1.getD front 0) (front :: tl) 0 st) self) := by
  intro levels
  induction levels with
  | nil => intro level self; rfl
  | cons raw rest ih =>
    intro level self
    simp only [assignLevels, assignedLevels, List.zip_cons_cons, List.foldl_cons]
    exact ih _ _

theorem assignedLevels_getD :
    ∀ (levels : List (List Nat)) (level i : Nat), levels.length ≤ level → level < LEVEL_WORD →
      i < levels.length → (assignedLevels levels level).getD i 0 = level - i := by
  intro levels
  induction levels with
  | nil => intro level i _ _ hi; simp at hi
  | cons raw rest ih =>
    intro level i hlen hlt hi
    simp only [List.length_cons] at hlen hi
    cases i with
    | zero => simp [assignedLevels]
    | succ j =>
      have hdec : (level + (LEVEL_WORD - 1)) % LEVEL_WORD = level - 1 := by
        simp only [LEVEL_WORD] at hlt ⊢
        omega
      simp only [assignedLevels, hdec, List.getD_cons_succ]
      rw [ih (level - 1) j (by omega) (by omega) (by omega)]
      omega

/-- The level at which `initializePartitionIDs` stores the raw grouping `partitions[k]`:
with `L` levels, `L + 1 < 256`, the loop visits `partitions[k]` as entry `L - 1 - k` of the
reversed list, and the level passed to `SetCellID` for it is `k + 2`. -/
theorem assignedLevels_of_partition (partitions : List (List Nat)) (k : Nat)
    (hL : partitions.length + 1 < LEVEL_WORD) (hk : k < partitions.length) :
    (assignedLevels partitions.reverse ((partitions.length + 1) % LEVEL_WORD)).getD
      (partitions.length - 1 - k) 0 = k + 2 := by
  rw [Nat.mod_eq_of_lt hL, assignedLevels_getD _ _ _ (by simp) hL (by simp; omega)]
  omega

/-- C19: the construction does not keep its levels within `1..L`.  For the worked example
(`L = 2`) the levels passed to `SetCellID` are 3 and 2: the first one indexes
`level_masks`, of length 2, at index 2, and the raw grouping `partitions[0]` is stored in
the field of level 2 while the field of level 1 stays 0 for every node. -/
theorem construction_levels_on_worked_example (zero_bits junk : Nat) :
    ∃ p, construct zero_bits junk workedPartitions workedNumCells = some p ∧
      assignedLevels workedPartitions.reverse ((workedPartitions.length + 1) % LEVEL_WORD)
        = [3, 2] ∧
      p.level_masks.length = 2 ∧ LevelIDToIndex 3 = 2 ∧
      (List.range 6).map (p.GetCell 1) = [0, 0, 0, 0, 0, 0] ∧
      (List.range 6).map (p.GetCell 2) = [0, 3, 0, 1, 0, 2] :=
  ⟨_, construct_worked zero_bits junk, by decide, by decide!, by decide!, by decide!,
    by decide!⟩

end PackedMultiLevelPartition

end osrm.util

namespace osrm.extractor

theorem NodeBasedEdge.lt_iff (a b : NodeBasedEdge) :
    a.lt b = true ↔
      a.source < b.source ∨ (a.source = b.source ∧
        (a.target < b.target ∨ (a.target = b.target ∧
          (a.weight < b.weight ∨ (a.weight = b.weight ∧
            (a.forward = true ∧ a.backward = true) ∧
              ¬ (b.forward = true ∧ b.backward = true)))))) := by
  unfold NodeBasedEdge.lt
  by_cases hs : a.source = b.source
  · by_cases ht : a.target = b.target
    · by_cases hw : a.weight = b.weight
      · simp only [hs, ht, hw, if_true, lt_self_iff_false, false_or, true_and]
        cases a.forward <;> cases a.backward <;> cases b.forward <;> cases b.backward <;> simp
      · simp only [hs, ht, hw, if_true, if_false, lt_self_iff_false, false_or, true_and,
          decide_eq_true_eq, false_and, or_false]
    · simp only [hs, ht, if_true, if_false, lt_self_iff_false, false_or, true_and,
        decide_eq_true_eq, false_and, or_false]
  · simp only [hs, if_false, decide_eq_true_eq, false_and, or_false]

/-- C15: `NodeBasedEdge::operator<` is a strict weak ordering: it is irreflexive and
transitive, and incomparability is transitive.  It compares (source, target, weight)
lexicographically, and when all three are equal an edge with `forward` and `backward`
both set comes strictly before an edge that lacks one of them. -/
theorem NodeBasedEdge.lt_strict_weak_order :
    (∀ a : NodeBasedEdge, a.lt a = false) ∧
    (∀ a b c : NodeBasedEdge, a.lt b = true → b.lt c = true → a.lt c = true) ∧
    (∀ a b c : NodeBasedEdge, (a.lt b = false ∧ b.lt a = false) →
      (b.lt c = false ∧ c.lt b = false) → (a.lt c = false ∧ c.lt a = false)) ∧
    (∀ a b : NodeBasedEdge, a.lt b = true ↔
      a.source < b.source ∨ (a.source = b.source ∧
        (a.target < b.target ∨ (a.target = b.target ∧
          (a.weight < b.weight ∨ (a.weight = b.weight ∧
            (a.forward = true ∧ a.backward = true) ∧
              ¬ (b.forward = true ∧ b.backward = true))))))) := by
  refine ⟨?_, ?_, ?_, NodeBasedEdge.lt_iff⟩
  · intro a
    rw [← Bool.not_eq_true, NodeBasedEdge.lt_iff]
    simp
  · intro a b c hab hbc
    rw [NodeBasedEdge.lt_iff] at hab hbc ⊢
    by_cases ha : (a.forward = true ∧ a.backward = true) <;>
    by_cases hb : (b.forward = true ∧ b.backward = true) <;>
    by_cases hc : (c.forward = true ∧ c.backward = true) <;>
    simp only [ha, hb, hc, not_true_eq_false, not_false_eq_true, and_true, and_false,
      true_and, false_and, or_false] at hab hbc ⊢ <;> omega
  · intro a b c ⟨h1, h2⟩ ⟨h3, h4⟩
    rw [← Bool.not_eq_true, NodeBasedEdge.lt_iff] at h1 h2 h3 h4
    rw [← Bool.not_eq_true, ← Bool.not_eq_true, NodeBasedEdge.lt_iff, NodeBasedEdge.lt_iff]
    by_cases ha : (a.forward = true ∧ a.backward = true) <;>
    by_cases hb : (b.forward = true ∧ b.backward = true) <;>
    by_cases hc : (c.forward = true ∧ c.backward = true) <;>
    simp only [ha, hb, hc, not_true_eq_false, not_false_eq_true, and_true, and_false,
      true_and, false_and, or_false] at h1 h2 h3 h4 ⊢ <;> omega

end osrm.extractor
